import Mathlib

/-
Shallow embedding of the ParserCombinator repository (src/lib.rs, src/input.rs,
src/sequence.rs).

A parser's `go` method takes `&mut InputRef` and returns `ParseResult<O>`.
The only mutable state in an `InputRef` is its offset (the input itself is an
immutable borrow), so `go` is embedded as a pure state function on offsets:
`PFun Off O = Off → ParseResult O × Off`, returning the outcome together with
the final cursor offset.  The `Input` trait (next/slice/start) is embedded as
the structure `Source`; `listSource` is the indexed-list instance matching
`<&[u8] as Input>` (offset = index, next = step by one), which also models
`<&str as Input>` on ASCII text.  The two concrete built-in adapters are
additionally embedded directly (`strNext` with UTF-8 byte offsets, `bytesNext`)
for the boundary-contract claims.
-/

namespace ParserComb

inductive ParseError where
  | SyntaxError
deriving DecidableEq, Repr

abbrev ParseResult (O : Type) := Except ParseError O

/-- The embedding of `Parser::go`: from a cursor offset, produce the result and
the final cursor offset. -/
abbrev PFun (Off O : Type) := Off → ParseResult O × Off

/-- Embedding of the `Input` trait: `next`, `slice`, `start` (src/input.rs). -/
structure Source (Tok Off Sl : Type) where
  next : Off → Off × Option Tok
  slice : Off → Off → Sl
  start : Off

/-- The indexed-list source: offsets are indices, `next` yields the element at
the offset and steps by one, exactly as `<&[u8] as Input>::next`; `slice s e`
is `&input[s..e]`. -/
def listSource (input : List Tok) : Source Tok Nat (List Tok) where
  next := fun off =>
    match input[off]? with
    | some t => (off + 1, some t)
    | none => (off, none)
  slice := fun s e => (input.drop s).take (e - s)
  start := 0

/-- `Or::go` (src/lib.rs lines 143-151): save the entry offset, run the first
branch; on failure rewind to the saved offset and run the second branch. -/
def Or.go (p1 p2 : PFun Off O) : PFun Off O := fun off =>
  match p1 off with
  | (.ok out, off1) => (.ok out, off1)
  | (.error _, _) => p2 off

/-- `Padded::go` (src/lib.rs lines 167-175): run the pad ignoring its result,
run the inner parser propagating its failure, run the pad again ignoring its
result. -/
def Padded.go (p : PFun Off O1) (padded_by : PFun Off O2) : PFun Off O1 := fun off =>
  let off1 := (padded_by off).2
  match p off1 with
  | (.error e, off2) => (.error e, off2)
  | (.ok out, off2) => (.ok out, (padded_by off2).2)

/-- `Filter::go` (src/lib.rs lines 191-201): save the entry offset, run the
inner parser; on success, if the predicate rejects the output, rewind to the
saved offset and fail with SyntaxError; inner failure propagates as-is. -/
def Filter.go (p : PFun Off O) (filter_func : O → Bool) : PFun Off O := fun off =>
  match p off with
  | (.ok out, off1) =>
    if filter_func out then (.ok out, off1)
    else (.error ParseError.SyntaxError, off)
  | (.error e, off1) => (.error e, off1)

/-- `Map::go` (src/lib.rs lines 417-420). -/
def Map.go (p : PFun Off O) (mapper : O → U) : PFun Off U := fun off =>
  match p off with
  | (.ok out, off1) => (.ok (mapper out), off1)
  | (.error e, off1) => (.error e, off1)

/-- `And::go` (src/lib.rs lines 367-372): run both parsers, pair the outputs;
failure of either propagates with the cursor at the failure point. -/
def And.go (p1 : PFun Off O1) (p2 : PFun Off O2) : PFun Off (O1 × O2) := fun off =>
  match p1 off with
  | (.error e, off1) => (.error e, off1)
  | (.ok a, off1) =>
    match p2 off1 with
    | (.error e, off2) => (.error e, off2)
    | (.ok b, off2) => (.ok (a, b), off2)

/-- `LeftBind::go` (src/lib.rs lines 381-385). -/
def LeftBind.go (p1 : PFun Off O1) (p2 : PFun Off O2) : PFun Off O1 := fun off =>
  match p1 off with
  | (.error e, off1) => (.error e, off1)
  | (.ok a, off1) =>
    match p2 off1 with
    | (.error e, off2) => (.error e, off2)
    | (.ok _, off2) => (.ok a, off2)

/-- `RightBind::go` (src/lib.rs lines 394-397). -/
def RightBind.go (p1 : PFun Off O1) (p2 : PFun Off O2) : PFun Off O2 := fun off =>
  match p1 off with
  | (.error e, off1) => (.error e, off1)
  | (.ok _, off1) => p2 off1

/-- `RepeatedRange` (src/lib.rs lines 206-211). -/
inductive RepeatedRange where
  | AtLeast (n : Nat)
  | Between (s e : Nat)
  | Exactly (n : Nat)
deriving DecidableEq, Repr

/-- `RepeatedRange::start` (src/lib.rs lines 214-221). -/
def RepeatedRange.start : RepeatedRange → Nat
  | .AtLeast s => s
  | .Between s _ => s
  | .Exactly n => n

/-- `RepeatedRange::end` (src/lib.rs lines 223-230). -/
def RepeatedRange.stop : RepeatedRange → Option Nat
  | .AtLeast _ => none
  | .Between _ e => some e
  | .Exactly n => some n

/-- `usize::MAX`, the bound substituted for a missing ceiling in
`Collect::go` (`at_most.unwrap_or(usize::MAX)`). -/
def USIZE_MAX : Nat := 2 ^ 64 - 1

/-- The mandatory loop of `Collect::go` (src/lib.rs lines 325-327): run the
inner parser `n` times, pushing each output; any failure propagates with the
cursor wherever the failing attempt left it and the accumulator discarded. -/
def collectMandatory (p : PFun Off OP) : Nat → List OP → Off → ParseResult (List OP) × Off
  | 0, acc, off => (.ok acc, off)
  | n + 1, acc, off =>
    match p off with
    | (.ok out, off1) => collectMandatory p n (acc ++ [out]) off1
    | (.error e, off1) => (.error e, off1)

/-- The optional loop of `Collect::go` (src/lib.rs lines 329-334): up to `fuel`
further attempts, stopping at the first failure, which is absorbed; the cursor
stays wherever the failing attempt left it. -/
def collectOptional (p : PFun Off OP) : Nat → List OP → Off → List OP × Off
  | 0, acc, off => (acc, off)
  | n + 1, acc, off =>
    match p off with
    | (.ok out, off1) => collectOptional p n (acc ++ [out]) off1
    | (.error _, off1) => (acc, off1)

/-- `Collect::go` (src/lib.rs lines 320-336): `range.start` mandatory runs,
then `range.end.unwrap_or(usize::MAX) - range.start` optional runs stopping at
the first failure. -/
def Collect.go (p : PFun Off OP) (range : RepeatedRange) : PFun Off (List OP) := fun off =>
  match collectMandatory p range.start [] off with
  | (.error e, off1) => (.error e, off1)
  | (.ok acc, off1) =>
    let (acc1, off2) := collectOptional p ((range.stop.getD USIZE_MAX) - range.start) acc off1
    (.ok acc1, off2)

/-- The token-matching loop shared by `Exact::go` and `OneOf::go`
(src/lib.rs lines 450-457 and 552-558): for each sequence token, peek the
source; on equality advance, otherwise stop with the cursor unmoved past the
matched span.  Returns whether the whole sequence matched, and the cursor. -/
def exactLoop [DecidableEq Tok] (src : Source Tok Off Sl) : List Tok → Off → Bool × Off
  | [], off => (true, off)
  | t :: rest, off =>
    match src.next off with
    | (off1, some tok) => if t = tok then exactLoop src rest off1 else (false, off)
    | (_, none) => (false, off)

/-- `Exact::go` (src/lib.rs lines 447-462): match the sequence token-by-token;
on full match, succeed with `slice(start, offset)`; on mismatch, fail with the
cursor left at the mismatch point. -/
def Exact.go [DecidableEq Tok] (src : Source Tok Off Sl) (seq : List Tok) : PFun Off Sl :=
  fun off =>
    match exactLoop src seq off with
    | (true, off1) => (.ok (src.slice off off1), off1)
    | (false, off1) => (.error ParseError.SyntaxError, off1)

/-- `End::go` (src/lib.rs lines 485-491): succeed without moving iff peeking
yields no token. -/
def End.go (src : Source Tok Off Sl) : PFun Off Unit := fun off =>
  match (src.next off).2 with
  | some _ => (.error ParseError.SyntaxError, off)
  | none => (.ok (), off)

/-- `Any::go` (src/lib.rs lines 514-520): if a token is available consume it,
otherwise fail without moving. -/
def Any.go (src : Source Tok Off Sl) : PFun Off Tok := fun off =>
  match src.next off with
  | (off1, some tok) => (.ok tok, off1)
  | (_, none) => (.error ParseError.SyntaxError, off)

/-- `OneOf::go` (src/lib.rs lines 548-566): try each candidate sequence from
the saved start offset, rewinding to it after a failed candidate; succeed with
`slice(start, offset)` on the first full match; after all candidates fail the
cursor sits at the start offset and the whole parser fails. -/
def oneOfLoop [DecidableEq Tok] (src : Source Tok Off Sl) (start : Off) :
    List (List Tok) → ParseResult Sl × Off
  | [] => (.error ParseError.SyntaxError, start)
  | s :: rest =>
    match exactLoop src s start with
    | (true, off1) => (.ok (src.slice start off1), off1)
    | (false, _) => oneOfLoop src start rest

/-- `OneOf::go` entry point (src/lib.rs lines 548-566). -/
def OneOf.go [DecidableEq Tok] (src : Source Tok Off Sl) (container : List (List Tok)) :
    PFun Off Sl := fun off => oneOfLoop src off container

/-- The syntax of parsers built from the repository's primitives and
combinators (the `Parser` trait operators of src/lib.rs), indexed by output
type; `collect` covers `repeated().at_least(..)[.at_most(..)]` and
`repeated().exactly(..)` through `RepeatedRange`.  The accumulator is the
ordered container (`Vec`). -/
inductive PExpr (Tok : Type) : Type → Type 1 where
  | map {α β : Type} (mapper : α → β) (p : PExpr Tok α) : PExpr Tok β
  | rightBind {α β : Type} (p1 : PExpr Tok α) (p2 : PExpr Tok β) : PExpr Tok β
  | leftBind {α β : Type} (p1 : PExpr Tok α) (p2 : PExpr Tok β) : PExpr Tok α
  | andThen {α β : Type} (p1 : PExpr Tok α) (p2 : PExpr Tok β) : PExpr Tok (α × β)
  | orElse {α : Type} (p1 p2 : PExpr Tok α) : PExpr Tok α
  | filter {α : Type} (filter_func : α → Bool) (p : PExpr Tok α) : PExpr Tok α
  | padded {α β : Type} (p : PExpr Tok α) (padded_by : PExpr Tok β) : PExpr Tok α
  | collect {α : Type} (range : RepeatedRange) (p : PExpr Tok α) : PExpr Tok (List α)
  | exacts (seq : List Tok) : PExpr Tok (List Tok)
  | anyTok : PExpr Tok Tok
  | eoi : PExpr Tok Unit
  | oneOf (container : List (List Tok)) : PExpr Tok (List Tok)

/-- Run a parser expression against an indexed-list input: each node evaluates
through the `go` function embedded from the corresponding impl in src/lib.rs. -/
def eval [DecidableEq Tok] (input : List Tok) : {α : Type} → PExpr Tok α → PFun Nat α
  | _, .map f p => Map.go (eval input p) f
  | _, .rightBind p1 p2 => RightBind.go (eval input p1) (eval input p2)
  | _, .leftBind p1 p2 => LeftBind.go (eval input p1) (eval input p2)
  | _, .andThen p1 p2 => And.go (eval input p1) (eval input p2)
  | _, .orElse p1 p2 => Or.go (eval input p1) (eval input p2)
  | _, .filter f p => Filter.go (eval input p) f
  | _, .padded p q => Padded.go (eval input p) (eval input q)
  | _, .collect r p => Collect.go (eval input p) r
  | _, .exacts s => Exact.go (listSource input) s
  | _, .anyTok => Any.go (listSource input)
  | _, .eoi => End.go (listSource input)
  | _, .oneOf ss => OneOf.go (listSource input) ss

/-- `Parser::parse` (src/lib.rs lines 19-22): build a fresh cursor at the
source's start offset and perform one attempt, returning the outcome. -/
def parse [DecidableEq Tok] (e : PExpr Tok α) (input : List Tok) : ParseResult α :=
  (eval input e (listSource input).start).1

/-- Run a parser `n` times from an offset: the list of the `n` outputs and the
final offset, or the first error with the offset where the failing attempt
stopped.  Used to state the bounded-repeat claims. -/
def runTimes (p : PFun Off OP) : Nat → Off → Except (ParseError × Off) (List OP × Off)
  | 0, off => .ok ([], off)
  | n + 1, off =>
    match p off with
    | (.ok out, off1) =>
      match runTimes p n off1 with
      | .ok (outs, off2) => .ok (out :: outs, off2)
      | .error x => .error x
    | (.error e, off1) => .error (e, off1)

/-- `len_utf8` of a Unicode scalar value, as in Rust's `char::len_utf8`. -/
def lenUtf8 (c : Char) : Nat :=
  if c.toNat < 0x80 then 1
  else if c.toNat < 0x800 then 2
  else if c.toNat < 0x10000 then 3
  else 4

/-- The UTF-8 byte length of a string, viewed as its list of scalar values. -/
def byteLen (s : List Char) : Nat := (s.map lenUtf8).sum

/-- The scalar value of `s` starting at byte offset `off`, when `off` is a
character boundary: `self[offset..].chars().next()`. -/
def charAtByte : List Char → Nat → Option Char
  | [], _ => none
  | c :: rest, off => if off = 0 then some c else charAtByte rest (off - lenUtf8 c)

/-- `<&str as Input>::next` (src/input.rs lines 25-31): decode the scalar value
at the byte offset and advance by its UTF-8 length; at end-of-stream return the
same offset with no token. -/
def strNext (s : List Char) (off : Nat) : Nat × Option Char :=
  match charAtByte s off with
  | some c => (off + lenUtf8 c, some c)
  | none => (off, none)

/-- `<&[u8] as Input>::next` (src/input.rs lines 51-57): yield the byte at the
offset and advance by one; at end-of-stream return the same offset with no
token. -/
def bytesNext (l : List Nat) (off : Nat) : Nat × Option Nat :=
  match (l.drop off).head? with
  | some b => (off + 1, some b)
  | none => (off, none)

/-! ### Helper lemmas -/

theorem lenUtf8_pos (c : Char) : 0 < lenUtf8 c := by
  unfold lenUtf8
  split <;> [skip; split] <;> [decide; skip; split] <;> decide

theorem charAtByte_byteLen (s : List Char) : charAtByte s (byteLen s) = none := by
  induction s with
  | nil => rfl
  | cons c rest ih =>
    have hpos := lenUtf8_pos c
    have hb : byteLen (c :: rest) = lenUtf8 c + byteLen rest := by
      simp [byteLen]
    rw [hb]
    unfold charAtByte
    rw [if_neg (by omega)]
    rw [Nat.add_sub_cancel_left]
    exact ih

theorem listSource_next_getElem (input : List Tok) (off : Nat) (h : off < input.length) :
    (listSource input).next off = (off + 1, some input[off]) := by
  simp [listSource, List.getElem?_eq_getElem h]

theorem listSource_next_none (input : List Tok) (off : Nat) (h : input[off]? = none) :
    (listSource input).next off = (off, none) := by
  simp [listSource, h]

/-- If the sequence is an initial run of the tokens at `off`, the matching loop
of `Exact::go`/`OneOf::go` succeeds, leaving the cursor just past the span. -/
theorem exactLoop_matches [DecidableEq Tok] (input : List Tok) :
    ∀ (s : List Tok) (off : Nat) (rest : List Tok), input.drop off = s ++ rest →
      exactLoop (listSource input) s off = (true, off + s.length) := by
  intro s
  induction s with
  | nil => intro off rest _; simp [exactLoop]
  | cons t ts ih =>
    intro off rest h
    have hlt : off < input.length := by
      by_contra hge
      push_neg at hge
      rw [List.drop_eq_nil_of_le hge] at h
      exact absurd h.symm (by simp)
    have hdrop : t :: (ts ++ rest) = input[off] :: input.drop (off + 1) := by
      rw [← List.cons_append, ← h]
      exact List.drop_eq_getElem_cons hlt
    have ht : t = input[off] := by injection hdrop
    have hts : ts ++ rest = input.drop (off + 1) := by injection hdrop
    unfold exactLoop
    rw [listSource_next_getElem input off hlt, ← ht]
    show (if t = t then exactLoop (listSource input) ts (off + 1) else (false, off)) = _
    rw [if_pos rfl, ih (off + 1) rest hts.symm]
    simp [Nat.add_comm, Nat.add_assoc, Nat.add_left_comm]

theorem exactLoop_matches_take [DecidableEq Tok] (input : List Tok) (s : List Tok) (off : Nat)
    (h : (input.drop off).take s.length = s) :
    exactLoop (listSource input) s off = (true, off + s.length) := by
  have h2 := List.take_append_drop s.length (input.drop off)
  rw [h] at h2
  exact exactLoop_matches input s off ((input.drop off).drop s.length) h2.symm

/-- On the first mismatching token, the matching loop of `Exact::go`/`OneOf::go`
stops with the cursor at the mismatch point: entry offset plus the length of
the matched initial run. -/
theorem exactLoop_mismatch [DecidableEq Tok] (input : List Tok) :
    ∀ (pre : List Tok) (t : Tok) (post rest2 : List Tok) (off : Nat),
      input.drop off = pre ++ rest2 → rest2.head? ≠ some t →
      exactLoop (listSource input) (pre ++ t :: post) off = (false, off + pre.length) := by
  intro pre
  induction pre with
  | nil =>
    intro t post rest2 off h hne
    have hoff : input[off]? = rest2.head? := by
      rw [← List.head?_drop, h]
      simp
    simp only [List.nil_append, List.length_nil, Nat.add_zero]
    unfold exactLoop
    cases hr : rest2.head? with
    | none =>
      rw [listSource_next_none input off (hoff.trans hr)]
    | some u =>
      have hu : t ≠ u := fun he => hne (by rw [hr, he])
      have hlt : off < input.length := by
        by_contra hge
        push_neg at hge
        rw [List.getElem?_eq_none hge, hr] at hoff
        exact absurd hoff (by simp)
      have hgu : input[off] = u := by
        have h3 := List.getElem?_eq_getElem hlt
        rw [hoff, hr] at h3
        injection h3 with hv
        exact hv.symm
      rw [listSource_next_getElem input off hlt, hgu]
      show (if t = u then exactLoop (listSource input) post (off + 1) else (false, off)) = _
      rw [if_neg hu]
  | cons a pre' ih =>
    intro t post rest2 off h hne
    have hlt : off < input.length := by
      by_contra hge
      push_neg at hge
      rw [List.drop_eq_nil_of_le hge] at h
      exact absurd h.symm (by simp)
    have hdrop : a :: (pre' ++ rest2) = input[off] :: input.drop (off + 1) := by
      rw [← List.cons_append, ← h]
      exact List.drop_eq_getElem_cons hlt
    have ha : a = input[off] := by injection hdrop
    have hrest : pre' ++ rest2 = input.drop (off + 1) := by injection hdrop
    show exactLoop (listSource input) (a :: (pre' ++ t :: post)) off = _
    unfold exactLoop
    rw [listSource_next_getElem input off hlt, ← ha]
    show (if a = a then exactLoop (listSource input) (pre' ++ t :: post) (off + 1)
      else (false, off)) = _
    rw [if_pos rfl, ih t post rest2 (off + 1) hrest.symm hne]
    simp [Nat.add_comm, Nat.add_assoc, Nat.add_left_comm]

/-- If the sequence is not an initial run of the tokens at `off`, the matching
loop reports a mismatch. -/
theorem exactLoop_false_of_take_ne [DecidableEq Tok] (input : List Tok) :
    ∀ (s : List Tok) (off : Nat), (input.drop off).take s.length ≠ s →
      (exactLoop (listSource input) s off).1 = false := by
  intro s
  induction s with
  | nil => intro off h; exact absurd (by simp) h
  | cons t ts ih =>
    intro off h
    unfold exactLoop
    cases hq : input[off]? with
    | none =>
      rw [listSource_next_none input off hq]
    | some u =>
      have hlt : off < input.length := by
        by_contra hge
        push_neg at hge
        rw [List.getElem?_eq_none hge] at hq
        exact absurd hq (by simp)
      have hu : input[off] = u := by
        have h3 := List.getElem?_eq_getElem hlt
        rw [hq] at h3
        injection h3 with hv
        exact hv.symm
      rw [listSource_next_getElem input off hlt, hu]
      show ((if t = u then exactLoop (listSource input) ts (off + 1)
        else (false, off)) : Bool × Nat).1 = false
      by_cases hteq : t = u
      · rw [if_pos hteq]
        refine ih (off + 1) ?_
        intro hts
        refine h ?_
        rw [List.drop_eq_getElem_cons hlt, hu]
        simp only [List.length_cons, List.take_succ_cons, hts, hteq]
      · rw [if_neg hteq]

/-- The failure branch of `oneOfLoop` steps to the next candidate. -/
theorem oneOfLoop_all_fail [DecidableEq Tok] (input : List Tok) (off : Nat) :
    ∀ (seqs : List (List Tok)),
      (∀ s ∈ seqs, (input.drop off).take s.length ≠ s) →
      oneOfLoop (listSource input) off seqs = (.error ParseError.SyntaxError, off) := by
  intro seqs
  induction seqs with
  | nil => intro _; rfl
  | cons s rest ih =>
    intro hall
    have hs := hall s (by simp)
    have hfalse := exactLoop_false_of_take_ne input s off hs
    unfold oneOfLoop
    cases hl : exactLoop (listSource input) s off with
    | mk b off1 =>
      rw [hl] at hfalse
      cases b with
      | true => exact absurd hfalse (by simp)
      | false => exact ih (fun t ht => hall t (by simp [ht]))

/-- `oneOfLoop` succeeds as soon as some candidate matches. -/
theorem oneOfLoop_first_match [DecidableEq Tok] (input : List Tok) (off : Nat) :
    ∀ (pre : List (List Tok)) (s : List Tok) (post : List (List Tok)),
      (∀ t ∈ pre, (input.drop off).take t.length ≠ t) →
      (input.drop off).take s.length = s →
      oneOfLoop (listSource input) off (pre ++ s :: post) = (.ok s, off + s.length) := by
  intro pre
  induction pre with
  | nil =>
    intro s post _ hs
    show oneOfLoop (listSource input) off (s :: post) = _
    unfold oneOfLoop
    rw [exactLoop_matches_take input s off hs]
    have hslice : (listSource input).slice off (off + s.length) = s := by
      show (input.drop off).take (off + s.length - off) = s
      rw [Nat.add_sub_cancel_left]
      exact hs
    simp [hslice]
  | cons t pre' ih =>
    intro s post hall hs
    have ht := hall t (by simp)
    have hfalse := exactLoop_false_of_take_ne input t off ht
    show oneOfLoop (listSource input) off (t :: (pre' ++ s :: post)) = _
    unfold oneOfLoop
    cases hl : exactLoop (listSource input) t off with
    | mk b off1 =>
      rw [hl] at hfalse
      cases b with
      | true => exact absurd hfalse (by simp)
      | false => exact ih s post (fun u hu => hall u (by simp [hu])) hs

/-- `oneOfLoop` cannot fail when some candidate matches. -/
theorem oneOfLoop_isOk_of_match [DecidableEq Tok] (input : List Tok) (off : Nat) :
    ∀ (seqs : List (List Tok)) (s : List Tok), s ∈ seqs →
      (input.drop off).take s.length = s →
      ∃ v off1, oneOfLoop (listSource input) off seqs = (.ok v, off1) := by
  intro seqs
  induction seqs with
  | nil => intro s hs; exact absurd hs (by simp)
  | cons t rest ih =>
    intro s hs hmatch
    unfold oneOfLoop
    cases hl : exactLoop (listSource input) t off with
    | mk b off1 =>
      cases b with
      | true => exact ⟨(listSource input).slice off off1, off1, rfl⟩
      | false =>
        rcases List.mem_cons.mp hs with heq | hmem
        · subst heq
          have := exactLoop_matches_take input s off hmatch
          rw [hl] at this
          exact absurd this (by simp)
        · exact ih s hmem hmatch

/-- Unfolding equations for the loops, used to drive the match reductions. -/
theorem runTimes_zero (p : PFun Off OP) (off : Off) :
    runTimes p 0 off = .ok ([], off) := rfl

theorem runTimes_succ (p : PFun Off OP) (n : Nat) (off : Off) :
    runTimes p (n + 1) off =
      match p off with
      | (Except.ok out, off1) =>
        match runTimes p n off1 with
        | Except.ok (outs, off2) => Except.ok (out :: outs, off2)
        | Except.error x => Except.error x
      | (Except.error e, off1) => Except.error (e, off1) := rfl

theorem collectMandatory_succ (p : PFun Off OP) (n : Nat) (acc : List OP) (off : Off) :
    collectMandatory p (n + 1) acc off =
      match p off with
      | (Except.ok out, off1) => collectMandatory p n (acc ++ [out]) off1
      | (Except.error e, off1) => (Except.error e, off1) := rfl

theorem collectOptional_succ (p : PFun Off OP) (n : Nat) (acc : List OP) (off : Off) :
    collectOptional p (n + 1) acc off =
      match p off with
      | (Except.ok out, off1) => collectOptional p n (acc ++ [out]) off1
      | (Except.error _, off1) => (acc, off1) := rfl

/-- The mandatory loop of `Collect::go`, characterized by `runTimes`: the
accumulated outputs are appended in consumption order, and a failure
propagates with the cursor wherever the failing attempt stopped. -/
theorem collectMandatory_eq (p : PFun Off OP) :
    ∀ (n : Nat) (acc : List OP) (off : Off),
      collectMandatory p n acc off =
        match runTimes p n off with
        | Except.ok (outs, off1) => (Except.ok (acc ++ outs), off1)
        | Except.error (e, off1) => (Except.error e, off1) := by
  intro n
  induction n with
  | zero => intro acc off; simp [collectMandatory, runTimes]
  | succ m ih =>
    intro acc off
    rw [collectMandatory_succ, runTimes_succ]
    cases hp : p off with
    | mk r off1 =>
      cases r with
      | ok out =>
        cases hr : runTimes p m off1 with
        | ok x =>
          cases x with
          | mk outs off2 => simp [ih (acc ++ [out]) off1, hr]
        | error x =>
          cases x with
          | mk e off2 => simp [ih (acc ++ [out]) off1, hr]
      | error e => simp

/-- The optional loop of `Collect::go` when the first failing attempt occurs
strictly before the fuel runs out: the failure is absorbed, the outputs
gathered so far are kept, and the cursor stays wherever the failing attempt
left it. -/
theorem collectOptional_stops (p : PFun Off OP) :
    ∀ (j fuel : Nat) (outs : List OP) (off off2 off3 : Off) (e : ParseError) (acc : List OP),
      j < fuel → runTimes p j off = .ok (outs, off2) → p off2 = (.error e, off3) →
      collectOptional p fuel acc off = (acc ++ outs, off3) := by
  intro j
  induction j with
  | zero =>
    intro fuel outs off off2 off3 e acc hj hrun hfail
    rw [runTimes_zero] at hrun
    have hrun2 : ([] : List OP) = outs ∧ off = off2 := by simpa using hrun
    obtain ⟨houts, hoff⟩ := hrun2
    subst houts
    subst hoff
    cases fuel with
    | zero => omega
    | succ m =>
      rw [collectOptional_succ, hfail]
      simp
  | succ k ih =>
    intro fuel outs off off2 off3 e acc hj hrun hfail
    rw [runTimes_succ] at hrun
    cases hp : p off with
    | mk r off1 =>
      rw [hp] at hrun
      cases r with
      | error e1 => simp at hrun
      | ok out =>
        have hrun1 : (match runTimes p k off1 with
          | Except.ok (outs1, off4) =>
            (Except.ok (out :: outs1, off4) : Except (ParseError × Off) (List OP × Off))
          | Except.error x => Except.error x) = Except.ok (outs, off2) := hrun
        cases hr : runTimes p k off1 with
        | error x =>
          rw [hr] at hrun1
          simp at hrun1
        | ok y =>
          cases y with
          | mk outs1 off4 =>
            rw [hr] at hrun1
            have hrun2 : out :: outs1 = outs ∧ off4 = off2 := by simpa using hrun1
            obtain ⟨houts, hoff⟩ := hrun2
            subst houts
            subst hoff
            cases fuel with
            | zero => omega
            | succ m =>
              have hrec := ih m outs1 off1 off4 off3 e (acc ++ [out]) (by omega) hr hfail
              rw [collectOptional_succ, hp]
              simp [hrec]

/-- The optional loop of `Collect::go` when every attempt within the fuel
succeeds: all outputs are gathered and the cursor ends at the last success. -/
theorem collectOptional_all (p : PFun Off OP) :
    ∀ (fuel : Nat) (outs : List OP) (off off2 : Off) (acc : List OP),
      runTimes p fuel off = .ok (outs, off2) →
      collectOptional p fuel acc off = (acc ++ outs, off2) := by
  intro fuel
  induction fuel with
  | zero =>
    intro outs off off2 acc hrun
    rw [runTimes_zero] at hrun
    have hrun2 : ([] : List OP) = outs ∧ off = off2 := by simpa using hrun
    obtain ⟨houts, hoff⟩ := hrun2
    subst houts
    subst hoff
    simp [collectOptional]
  | succ m ih =>
    intro outs off off2 acc hrun
    rw [runTimes_succ] at hrun
    cases hp : p off with
    | mk r off1 =>
      rw [hp] at hrun
      cases r with
      | error e1 => simp at hrun
      | ok out =>
        have hrun1 : (match runTimes p m off1 with
          | Except.ok (outs1, off4) =>
            (Except.ok (out :: outs1, off4) : Except (ParseError × Off) (List OP × Off))
          | Except.error x => Except.error x) = Except.ok (outs, off2) := hrun
        cases hr : runTimes p m off1 with
        | error x =>
          rw [hr] at hrun1
          simp at hrun1
        | ok y =>
          cases y with
          | mk outs1 off4 =>
            rw [hr] at hrun1
            have hrun2 : out :: outs1 = outs ∧ off4 = off2 := by simpa using hrun1
            obtain ⟨houts, hoff⟩ := hrun2
            subst houts
            subst hoff
            have hrec := ih outs1 off1 off4 (acc ++ [out]) hr
            rw [collectOptional_succ, hp]
            simp [hrec]

/-! ### Offset non-retreat -/

/-- A parser never moves the cursor backwards, whatever the outcome. -/
def NonRetreat (p : PFun Nat O) : Prop := ∀ off, off ≤ (p off).2

theorem nonRetreat_or {p1 p2 : PFun Nat O} (h1 : NonRetreat p1) (h2 : NonRetreat p2) :
    NonRetreat (Or.go p1 p2) := by
  intro off
  have hp1 := h1 off
  have hp2 := h2 off
  unfold Or.go
  cases hp : p1 off with
  | mk r off1 =>
    rw [hp] at hp1
    cases r with
    | ok out => exact hp1
    | error e => exact hp2

theorem nonRetreat_padded {p : PFun Nat O1} {q : PFun Nat O2}
    (hp : NonRetreat p) (hq : NonRetreat q) : NonRetreat (Padded.go p q) := by
  intro off
  have h1 := hq off
  have h2 := hp (q off).2
  cases hm : p (q off).2 with
  | mk r off2 =>
    rw [hm] at h2
    cases r with
    | error e =>
      have hgoal : (Padded.go p q off).2 = off2 := by simp [Padded.go, hm]
      rw [hgoal]
      exact le_trans h1 h2
    | ok out =>
      have h3 := hq off2
      have hgoal : (Padded.go p q off).2 = (q off2).2 := by simp [Padded.go, hm]
      rw [hgoal]
      exact le_trans h1 (le_trans h2 h3)

theorem nonRetreat_filter {p : PFun Nat O} {f : O → Bool} (hp : NonRetreat p) :
    NonRetreat (Filter.go p f) := by
  intro off
  have h1 := hp off
  cases hm : p off with
  | mk r off1 =>
    rw [hm] at h1
    cases r with
    | ok out =>
      by_cases hf : f out
      · have hgoal : (Filter.go p f off).2 = off1 := by simp [Filter.go, hm, hf]
        rw [hgoal]
        exact h1
      · have hgoal : (Filter.go p f off).2 = off := by simp [Filter.go, hm, hf]
        rw [hgoal]
    | error e =>
      have hgoal : (Filter.go p f off).2 = off1 := by simp [Filter.go, hm]
      rw [hgoal]
      exact h1

theorem nonRetreat_map {p : PFun Nat O} {f : O → U} (hp : NonRetreat p) :
    NonRetreat (Map.go p f) := by
  intro off
  have h1 := hp off
  unfold Map.go
  cases hm : p off with
  | mk r off1 =>
    rw [hm] at h1
    cases r with
    | ok out => exact h1
    | error e => exact h1

theorem nonRetreat_and {p1 : PFun Nat O1} {p2 : PFun Nat O2}
    (h1 : NonRetreat p1) (h2 : NonRetreat p2) : NonRetreat (And.go p1 p2) := by
  intro off
  have hp1 := h1 off
  cases hm : p1 off with
  | mk r off1 =>
    rw [hm] at hp1
    cases r with
    | error e =>
      have hgoal0 : (And.go p1 p2 off).2 = off1 := by simp [And.go, hm]
      rw [hgoal0]
      exact hp1
    | ok a =>
      have hp2 := h2 off1
      cases hm2 : p2 off1 with
      | mk r2 off2 =>
        rw [hm2] at hp2
        cases r2 with
        | error e =>
          have hgoal : (And.go p1 p2 off).2 = off2 := by simp [And.go, hm, hm2]
          rw [hgoal]
          exact le_trans hp1 hp2
        | ok b =>
          have hgoal : (And.go p1 p2 off).2 = off2 := by simp [And.go, hm, hm2]
          rw [hgoal]
          exact le_trans hp1 hp2

theorem nonRetreat_leftBind {p1 : PFun Nat O1} {p2 : PFun Nat O2}
    (h1 : NonRetreat p1) (h2 : NonRetreat p2) : NonRetreat (LeftBind.go p1 p2) := by
  intro off
  have hp1 := h1 off
  cases hm : p1 off with
  | mk r off1 =>
    rw [hm] at hp1
    cases r with
    | error e =>
      have hgoal0 : (LeftBind.go p1 p2 off).2 = off1 := by simp [LeftBind.go, hm]
      rw [hgoal0]
      exact hp1
    | ok a =>
      have hp2 := h2 off1
      cases hm2 : p2 off1 with
      | mk r2 off2 =>
        rw [hm2] at hp2
        cases r2 with
        | error e =>
          have hgoal : (LeftBind.go p1 p2 off).2 = off2 := by simp [LeftBind.go, hm, hm2]
          rw [hgoal]
          exact le_trans hp1 hp2
        | ok b =>
          have hgoal : (LeftBind.go p1 p2 off).2 = off2 := by simp [LeftBind.go, hm, hm2]
          rw [hgoal]
          exact le_trans hp1 hp2

theorem nonRetreat_rightBind {p1 : PFun Nat O1} {p2 : PFun Nat O2}
    (h1 : NonRetreat p1) (h2 : NonRetreat p2) : NonRetreat (RightBind.go p1 p2) := by
  intro off
  have hp1 := h1 off
  cases hm : p1 off with
  | mk r off1 =>
    rw [hm] at hp1
    cases r with
    | error e =>
      have hgoal : (RightBind.go p1 p2 off).2 = off1 := by simp [RightBind.go, hm]
      rw [hgoal]
      exact hp1
    | ok a =>
      have hgoal : (RightBind.go p1 p2 off).2 = (p2 off1).2 := by simp [RightBind.go, hm]
      rw [hgoal]
      exact le_trans hp1 (h2 off1)

theorem nonRetreat_collectMandatory {p : PFun Nat OP} (hp : NonRetreat p) :
    ∀ (n : Nat) (acc : List OP) (off : Nat), off ≤ (collectMandatory p n acc off).2 := by
  intro n
  induction n with
  | zero => intro acc off; exact le_refl off
  | succ m ih =>
    intro acc off
    have h1 := hp off
    rw [collectMandatory_succ]
    cases hm : p off with
    | mk r off1 =>
      rw [hm] at h1
      cases r with
      | ok out => exact le_trans h1 (ih (acc ++ [out]) off1)
      | error e => exact h1

theorem nonRetreat_collectOptional {p : PFun Nat OP} (hp : NonRetreat p) :
    ∀ (n : Nat) (acc : List OP) (off : Nat), off ≤ (collectOptional p n acc off).2 := by
  intro n
  induction n with
  | zero => intro acc off; exact le_refl off
  | succ m ih =>
    intro acc off
    have h1 := hp off
    rw [collectOptional_succ]
    cases hm : p off with
    | mk r off1 =>
      rw [hm] at h1
      cases r with
      | ok out => exact le_trans h1 (ih (acc ++ [out]) off1)
      | error e => exact h1

theorem nonRetreat_collect {p : PFun Nat OP} {range : RepeatedRange} (hp : NonRetreat p) :
    NonRetreat (Collect.go p range) := by
  intro off
  have h1 := nonRetreat_collectMandatory hp range.start [] off
  cases hm : collectMandatory p range.start [] off with
  | mk r off1 =>
    rw [hm] at h1
    cases r with
    | error e =>
      have hgoal : (Collect.go p range off).2 = off1 := by simp [Collect.go, hm]
      rw [hgoal]
      exact h1
    | ok acc =>
      have h2 := nonRetreat_collectOptional hp
        ((range.stop.getD USIZE_MAX) - range.start) acc off1
      cases ho : collectOptional p ((range.stop.getD USIZE_MAX) - range.start) acc off1 with
      | mk acc1 off2 =>
        rw [ho] at h2
        have hgoal : (Collect.go p range off).2 = off2 := by simp [Collect.go, hm, ho]
        rw [hgoal]
        exact le_trans h1 h2

theorem exactLoop_cons [DecidableEq Tok] (src : Source Tok Off Sl) (t : Tok) (ts : List Tok)
    (off : Off) :
    exactLoop src (t :: ts) off =
      match src.next off with
      | (off1, some tok) => if t = tok then exactLoop src ts off1 else (false, off)
      | (_, none) => (false, off) := rfl

theorem nonRetreat_exactLoop [DecidableEq Tok] (input : List Tok) :
    ∀ (s : List Tok) (off : Nat), off ≤ (exactLoop (listSource input) s off).2 := by
  intro s
  induction s with
  | nil => intro off; exact le_refl off
  | cons t ts ih =>
    intro off
    cases hq : input[off]? with
    | none =>
      have hgoal : (exactLoop (listSource input) (t :: ts) off).2 = off := by
        rw [exactLoop_cons, listSource_next_none input off hq]
      rw [hgoal]
    | some u =>
      have hlt : off < input.length := by
        by_contra hge
        push_neg at hge
        rw [List.getElem?_eq_none hge] at hq
        exact absurd hq (by simp)
      by_cases ht : t = input[off]
      · have hgoal : (exactLoop (listSource input) (t :: ts) off).2
            = (exactLoop (listSource input) ts (off + 1)).2 := by
          rw [exactLoop_cons, listSource_next_getElem input off hlt]
          simp [ht]
        rw [hgoal]
        exact le_trans (Nat.le_succ off) (ih (off + 1))
      · have hgoal : (exactLoop (listSource input) (t :: ts) off).2 = off := by
          rw [exactLoop_cons, listSource_next_getElem input off hlt]
          simp [ht]
        rw [hgoal]

theorem nonRetreat_exact [DecidableEq Tok] (input : List Tok) (seq : List Tok) :
    NonRetreat (Exact.go (listSource input) seq) := by
  intro off
  have h1 := nonRetreat_exactLoop input seq off
  unfold Exact.go
  cases hm : exactLoop (listSource input) seq off with
  | mk b off1 =>
    rw [hm] at h1
    cases b with
    | true => exact h1
    | false => exact h1

theorem nonRetreat_end (input : List Tok) : NonRetreat (End.go (listSource input)) := by
  intro off
  unfold End.go
  cases hm : ((listSource input).next off).2 with
  | none => exact le_refl off
  | some u => exact le_refl off

theorem nonRetreat_any (input : List Tok) : NonRetreat (Any.go (listSource input)) := by
  intro off
  unfold Any.go
  cases hq : input[off]? with
  | none => rw [listSource_next_none input off hq]
  | some u =>
    have hlt : off < input.length := by
      by_contra hge
      push_neg at hge
      rw [List.getElem?_eq_none hge] at hq
      exact absurd hq (by simp)
    rw [listSource_next_getElem input off hlt]
    exact Nat.le_succ off

theorem nonRetreat_oneOfLoop [DecidableEq Tok] (input : List Tok) (off : Nat) :
    ∀ (seqs : List (List Tok)), off ≤ (oneOfLoop (listSource input) off seqs).2 := by
  intro seqs
  induction seqs with
  | nil => exact le_refl off
  | cons s rest ih =>
    have h1 := nonRetreat_exactLoop input s off
    unfold oneOfLoop
    cases hm : exactLoop (listSource input) s off with
    | mk b off1 =>
      rw [hm] at h1
      cases b with
      | true => exact h1
      | false => exact ih

theorem nonRetreat_oneOf [DecidableEq Tok] (input : List Tok) (seqs : List (List Tok)) :
    NonRetreat (OneOf.go (listSource input) seqs) := by
  intro off
  exact nonRetreat_oneOfLoop input off seqs

/-- Every parser built from the primitives and combinators never moves the
cursor backwards, on success or on failure. -/
theorem eval_nonRetreat [DecidableEq Tok] (input : List Tok) :
    ∀ {α : Type} (e : PExpr Tok α), NonRetreat (eval input e) := by
  intro α e
  induction e with
  | map f p ih => exact nonRetreat_map ih
  | rightBind p1 p2 ih1 ih2 => exact nonRetreat_rightBind ih1 ih2
  | leftBind p1 p2 ih1 ih2 => exact nonRetreat_leftBind ih1 ih2
  | andThen p1 p2 ih1 ih2 => exact nonRetreat_and ih1 ih2
  | orElse p1 p2 ih1 ih2 => exact nonRetreat_or ih1 ih2
  | filter f p ih => exact nonRetreat_filter ih
  | padded p q ihp ihq => exact nonRetreat_padded ihp ihq
  | collect r p ih => exact nonRetreat_collect ih
  | exacts s => exact nonRetreat_exact input s
  | anyTok => exact nonRetreat_any input
  | eoi => exact nonRetreat_end input
  | oneOf ss => exact nonRetreat_oneOf input ss

/-! ### Claims -/

/-- C1: for every pair of parsers and every cursor state, `alternative` saves
the entry offset and attempts the first branch; if that branch fails (possibly
after consuming input), the cursor is rewound to the saved offset and the
second branch attempted, so the combined outcome and final cursor offset equal
those of running the second branch alone from the original offset; if both
fail, the overall result is the second branch's failure. -/
theorem C1_alternative_rewind {Off O : Type} (p1 p2 : PFun Off O) (off off1 : Off)
    (e : ParseError) (h : p1 off = (Except.error e, off1)) :
    Or.go p1 p2 off = p2 off ∧
    (∀ e2 off2, p2 off = (Except.error e2, off2) →
      Or.go p1 p2 off = (Except.error e2, off2)) := by
  have hor : Or.go p1 p2 off = p2 off := by simp [Or.go, h]
  exact ⟨hor, fun e2 off2 h2 => by rw [hor, h2]⟩

theorem C1_alternative_rewind_witness :
    ((fun o => ((Except.error ParseError.SyntaxError : ParseResult Nat), o + 2)) 0
        = ((Except.error ParseError.SyntaxError : ParseResult Nat), 2)) ∧
    Or.go (fun o => ((Except.error ParseError.SyntaxError : ParseResult Nat), o + 2))
        (fun o => ((Except.ok 7 : ParseResult Nat), o + 1)) 0
      = (fun o => ((Except.ok 7 : ParseResult Nat), o + 1)) 0 :=
  ⟨rfl,
    (C1_alternative_rewind
      (fun o => ((Except.error ParseError.SyntaxError : ParseResult Nat), o + 2))
      (fun o => ((Except.ok 7 : ParseResult Nat), o + 1)) 0 2
      ParseError.SyntaxError rfl).1⟩

/-- C2: bounded-repeat runs the inner parser exactly `min = range.start`
mandatory times (the first conjunct: a failure there is the whole combinator's
failure, cursor left where the attempt failed, accumulator discarded); after
the floor is met it keeps attempting up to `max − min` more times (a missing
ceiling standing for `usize::MAX` exactly as in the code), stopping at the
first failing optional attempt, which is absorbed, the combinator still
succeeding with the accumulated outputs (second conjunct), or exhausting the
ceiling when no optional attempt fails (third conjunct). -/
theorem C2_bounded_repeat {Off OP : Type} (p : PFun Off OP) (range : RepeatedRange)
    (off : Off) :
    (∀ e offF, runTimes p range.start off = .error (e, offF) →
        Collect.go p range off = (Except.error e, offF)) ∧
    (∀ acc off1 j outs off2 e off3,
        runTimes p range.start off = .ok (acc, off1) →
        j < range.stop.getD USIZE_MAX - range.start →
        runTimes p j off1 = .ok (outs, off2) →
        p off2 = (Except.error e, off3) →
        Collect.go p range off = (Except.ok (acc ++ outs), off3)) ∧
    (∀ acc off1 outs off2,
        runTimes p range.start off = .ok (acc, off1) →
        runTimes p (range.stop.getD USIZE_MAX - range.start) off1 = .ok (outs, off2) →
        Collect.go p range off = (Except.ok (acc ++ outs), off2)) := by
  refine ⟨?_, ?_, ?_⟩
  · intro e offF h
    have hmeq := collectMandatory_eq p range.start [] off
    rw [h] at hmeq
    simp only [] at hmeq
    simp [Collect.go, hmeq]
  · intro acc off1 j outs off2 e off3 h hj hr hf
    have hmeq := collectMandatory_eq p range.start [] off
    rw [h] at hmeq
    simp only [List.nil_append] at hmeq
    have hopt := collectOptional_stops p j (range.stop.getD USIZE_MAX - range.start)
      outs off1 off2 off3 e acc hj hr hf
    simp [Collect.go, hmeq, hopt]
  · intro acc off1 outs off2 h hall
    have hmeq := collectMandatory_eq p range.start [] off
    rw [h] at hmeq
    simp only [List.nil_append] at hmeq
    have hopt := collectOptional_all p (range.stop.getD USIZE_MAX - range.start)
      outs off1 off2 acc hall
    simp [Collect.go, hmeq, hopt]

theorem C2_bounded_repeat_witness :
    runTimes (Exact.go (listSource ['h', 'h', 'h']) ['h'])
        (RepeatedRange.Between 1 3).start 0 = .ok ([['h']], 1) ∧
    runTimes (Exact.go (listSource ['h', 'h', 'h']) ['h'])
        ((RepeatedRange.Between 1 3).stop.getD USIZE_MAX - (RepeatedRange.Between 1 3).start) 1
      = .ok ([['h'], ['h']], 3) ∧
    Collect.go (Exact.go (listSource ['h', 'h', 'h']) ['h']) (RepeatedRange.Between 1 3) 0
      = (Except.ok [['h'], ['h'], ['h']], 3) :=
  ⟨rfl, rfl,
    (C2_bounded_repeat (Exact.go (listSource ['h', 'h', 'h']) ['h'])
      (RepeatedRange.Between 1 3) 0).2.2 [['h']] 1 [['h'], ['h']] 3 rfl rfl⟩

/-- C3: literal-match compares the upcoming tokens one-by-one against the
sequence; when the sequence is an initial run of the input at the cursor it
succeeds with the slice spanning exactly the consumed span (the sequence
itself) and the offset advanced by its length; at the first mismatching token
it fails leaving the cursor at the mismatch point (entry offset plus matched
run), with no self-restore. -/
theorem C3_literal_match {Tok : Type} [DecidableEq Tok] (input seq : List Tok) (off : Nat) :
    ((input.drop off).take seq.length = seq →
        Exact.go (listSource input) seq off = (Except.ok seq, off + seq.length)) ∧
    (∀ pre t post rest2, seq = pre ++ t :: post → input.drop off = pre ++ rest2 →
        rest2.head? ≠ some t →
        Exact.go (listSource input) seq off
          = (Except.error ParseError.SyntaxError, off + pre.length)) := by
  constructor
  · intro h
    have hl := exactLoop_matches_take input seq off h
    have hslice : (listSource input).slice off (off + seq.length) = seq := by
      show (input.drop off).take (off + seq.length - off) = seq
      rw [Nat.add_sub_cancel_left]
      exact h
    simp [Exact.go, hl, hslice]
  · intro pre t post rest2 hseq hdrop hne
    subst hseq
    have hl := exactLoop_mismatch input pre t post rest2 off hdrop hne
    simp [Exact.go, hl]

theorem C3_literal_match_witness :
    Exact.go (listSource ['a', 'b', 'c', 'd', 'e', 'f']) ['a', 'b', 'c'] 0
      = (Except.ok ['a', 'b', 'c'], 3) ∧
    Exact.go (listSource ['a', 'b', 'x', 'd', 'e', 'f']) ['a', 'b', 'c'] 0
      = (Except.error ParseError.SyntaxError, 2) :=
  ⟨(C3_literal_match ['a', 'b', 'c', 'd', 'e', 'f'] ['a', 'b', 'c'] 0).1 rfl,
    (C3_literal_match ['a', 'b', 'x', 'd', 'e', 'f'] ['a', 'b', 'c'] 0).2
      ['a', 'b'] 'c' [] ['x', 'd', 'e', 'f'] rfl rfl (by decide)⟩

/-- C4: first-match-of tries the candidates in listed order, rewinding the
cursor to the pre-attempt offset after each failed candidate; it succeeds
with the slice of the first candidate that is an initial run of the input at
the cursor, and it fails with the cursor restored to the original offset if
and only if every candidate fails. -/
theorem C4_first_match_of {Tok : Type} [DecidableEq Tok] (input : List Tok)
    (seqs : List (List Tok)) (off : Nat) :
    (∀ pre s post, seqs = pre ++ s :: post →
        (∀ t ∈ pre, (input.drop off).take t.length ≠ t) →
        (input.drop off).take s.length = s →
        OneOf.go (listSource input) seqs off = (Except.ok s, off + s.length)) ∧
    ((∀ s ∈ seqs, (input.drop off).take s.length ≠ s) ↔
        OneOf.go (listSource input) seqs off
          = (Except.error ParseError.SyntaxError, off)) := by
  constructor
  · intro pre s post hseqs hall hs
    subst hseqs
    exact oneOfLoop_first_match input off pre s post hall hs
  · constructor
    · intro hall
      exact oneOfLoop_all_fail input off seqs hall
    · intro hres s hs hmatch
      obtain ⟨v, off1, hok⟩ := oneOfLoop_isOk_of_match input off seqs s hs hmatch
      have h2 : oneOfLoop (listSource input) off seqs
          = (Except.error ParseError.SyntaxError, off) := hres
      rw [hok] at h2
      simp at h2

theorem C4_first_match_of_witness :
    OneOf.go (listSource ['c', 'a', 'r']) [['c', 'a', 't'], ['c', 'a', 'r']] 0
      = (Except.ok ['c', 'a', 'r'], 3) ∧
    OneOf.go (listSource ['c', 'a', 'p']) [['c', 'a', 't'], ['c', 'a', 'r']] 0
      = (Except.error ParseError.SyntaxError, 0) :=
  ⟨(C4_first_match_of ['c', 'a', 'r'] [['c', 'a', 't'], ['c', 'a', 'r']] 0).1
      [['c', 'a', 't']] ['c', 'a', 'r'] [] rfl (by decide) rfl,
    (C4_first_match_of ['c', 'a', 'p'] [['c', 'a', 't'], ['c', 'a', 'r']] 0).2.mp
      (by decide)⟩

/-- C5: predicate-filter runs the inner parser; if it succeeds and the
predicate holds, the output passes through unchanged with no extra offset
change; if it succeeds but the predicate rejects, the cursor is rewound to the
pre-attempt offset and the combinator fails with SyntaxError; an inner-parser
failure propagates as-is, without any restoration. -/
theorem C5_predicate_filter {Off O : Type} (p : PFun Off O) (filter_func : O → Bool)
    (off : Off) :
    (∀ v off1, p off = (Except.ok v, off1) → filter_func v = true →
        Filter.go p filter_func off = (Except.ok v, off1)) ∧
    (∀ v off1, p off = (Except.ok v, off1) → filter_func v = false →
        Filter.go p filter_func off = (Except.error ParseError.SyntaxError, off)) ∧
    (∀ e off1, p off = (Except.error e, off1) →
        Filter.go p filter_func off = (Except.error e, off1)) := by
  refine ⟨?_, ?_, ?_⟩
  · intro v off1 h hf
    simp [Filter.go, h, hf]
  · intro v off1 h hf
    simp [Filter.go, h, hf]
  · intro e off1 h
    simp [Filter.go, h]

theorem C5_predicate_filter_witness :
    Any.go (listSource ['1', 'a']) 1 = (Except.ok 'a', 2) ∧
    (fun c => c == '1') 'a' = false ∧
    Filter.go (Any.go (listSource ['1', 'a'])) (fun c => c == '1') 1
      = (Except.error ParseError.SyntaxError, 1) :=
  ⟨rfl, rfl,
    (C5_predicate_filter (Any.go (listSource ['1', 'a'])) (fun c => c == '1') 1).2.1
      'a' 2 rfl rfl⟩

/-- C6: every parser built from the primitives and combinators leaves the
cursor's offset ≥ its entry offset on success (the statement quantifies over
every parser expression and every entry offset, so it applies to each
sub-attempt of a successful top-to-bottom consumption, making the offsets
along it monotonically non-decreasing), and the zero-consumption end-of-input
primitive leaves the offset exactly unchanged. -/
theorem C6_non_retreat {Tok : Type} [DecidableEq Tok] (input : List Tok) {α : Type}
    (e : PExpr Tok α) (off : Nat) :
    (∀ v off1, eval input e off = (Except.ok v, off1) → off ≤ off1) ∧
    (∀ off2 : Nat, (eval input (PExpr.eoi : PExpr Tok Unit) off2).2 = off2) := by
  constructor
  · intro v off1 h
    have hle := eval_nonRetreat input e off
    rw [h] at hle
    exact hle
  · intro off2
    show (End.go (listSource input) off2).2 = off2
    unfold End.go
    cases ((listSource input).next off2).2 <;> rfl

theorem C6_non_retreat_witness :
    eval ['a'] (PExpr.anyTok : PExpr Char Char) 0 = (Except.ok 'a', 1) ∧ (0 : Nat) ≤ 1 :=
  ⟨rfl, (C6_non_retreat ['a'] (PExpr.anyTok : PExpr Char Char) 0).1 'a' 1 rfl⟩

/-- C7: determinism / referential transparency: `go` only reads the parser
value and the cursor offset (the input being immutable for the parse), so it
is embedded as a pure function of both, and any two runs of the same parser
from the same cursor state return the same outcome and the same final
offset. -/
theorem C7_determinism {Tok : Type} [DecidableEq Tok] (input : List Tok) {α : Type}
    (e : PExpr Tok α) (off : Nat) (r1 r2 : ParseResult α × Nat)
    (h1 : r1 = eval input e off) (h2 : r2 = eval input e off) :
    r1.1 = r2.1 ∧ r1.2 = r2.2 := by
  subst h1
  subst h2
  exact ⟨rfl, rfl⟩

theorem C7_determinism_witness :
    (((Except.ok ['a'] : ParseResult (List Char)), 1)
        = eval ['a', 'b'] (PExpr.exacts ['a']) 0) ∧
    ((Except.ok ['a'] : ParseResult (List Char)), 1).1
      = ((Except.ok ['a'] : ParseResult (List Char)), 1).1 :=
  ⟨rfl,
    (C7_determinism ['a', 'b'] (PExpr.exacts ['a']) 0
      ((Except.ok ['a'] : ParseResult (List Char)), 1)
      ((Except.ok ['a'] : ParseResult (List Char)), 1) (by rfl) (by rfl)).1⟩

/-- C8: both built-in source adapters, the text-scalar source over strings
(byte offsets, UTF-8 decoding) and the raw-byte source over byte slices,
return at end-of-stream the same offset with no token, so advancing is
idempotent at the boundary and repeated queries never move past the end. -/
theorem C8_end_of_stream (s : List Char) (l : List Nat) :
    strNext s (byteLen s) = (byteLen s, none) ∧ bytesNext l l.length = (l.length, none) := by
  constructor
  · unfold strNext
    rw [charAtByte_byteLen]
  · unfold bytesNext
    rw [List.drop_length]
    rfl

/-- C9: when an optional-phase attempt of bounded-repeat fails and is
absorbed, the combinator performs no offset snapshot or restore around it:
the final cursor offset of the (successful) repeat equals exactly the offset
the failed inner attempt left, so a non-self-restoring inner parser such as
literal-match can leave the cursor partway through the failed match (the
witness exhibits this with a literal stopped mid-match). -/
theorem C9_absorbed_failure_offset {Off OP : Type} (p : PFun Off OP)
    (range : RepeatedRange) (off : Off) (acc outs : List OP) (off1 off2 off3 : Off)
    (j : Nat) (e : ParseError)
    (hm : runTimes p range.start off = .ok (acc, off1))
    (hj : j < range.stop.getD USIZE_MAX - range.start)
    (hr : runTimes p j off1 = .ok (outs, off2))
    (hf : p off2 = (Except.error e, off3)) :
    (Collect.go p range off).2 = off3 ∧
    (Collect.go p range off).1 = Except.ok (acc ++ outs) := by
  have hmeq := collectMandatory_eq p range.start [] off
  rw [hm] at hmeq
  simp only [List.nil_append] at hmeq
  have hopt := collectOptional_stops p j (range.stop.getD USIZE_MAX - range.start)
    outs off1 off2 off3 e acc hj hr hf
  constructor <;> simp [Collect.go, hmeq, hopt]

theorem C9_absorbed_failure_offset_witness :
    runTimes (Exact.go (listSource ['a', 'b', 'a', 'b', 'a', ' ']) ['a', 'b'])
        (RepeatedRange.AtLeast 1).start 0 = .ok ([['a', 'b']], 2) ∧
    1 < (RepeatedRange.AtLeast 1).stop.getD USIZE_MAX - (RepeatedRange.AtLeast 1).start ∧
    runTimes (Exact.go (listSource ['a', 'b', 'a', 'b', 'a', ' ']) ['a', 'b']) 1 2
      = .ok ([['a', 'b']], 4) ∧
    Exact.go (listSource ['a', 'b', 'a', 'b', 'a', ' ']) ['a', 'b'] 4
      = (Except.error ParseError.SyntaxError, 5) ∧
    (Collect.go (Exact.go (listSource ['a', 'b', 'a', 'b', 'a', ' ']) ['a', 'b'])
        (RepeatedRange.AtLeast 1) 0).2 = 5 :=
  ⟨rfl, by decide, rfl, rfl,
    (C9_absorbed_failure_offset
      (Exact.go (listSource ['a', 'b', 'a', 'b', 'a', ' ']) ['a', 'b'])
      (RepeatedRange.AtLeast 1) 0 [['a', 'b']] [['a', 'b']] 2 4 5 1
      ParseError.SyntaxError rfl (by decide) rfl rfl).1⟩

/-- C10: the surrounding/padded combinator never rewinds the cursor after a
padding run: whatever offset the leading padding attempt leaves (also when it
fails after consuming tokens), the inner parser starts from exactly that
offset, and the overall final offset of a success is exactly whatever offset
the trailing padding run leaves. -/
theorem C10_padded_no_rewind {Off O1 O2 : Type} (p : PFun Off O1) (pad : PFun Off O2)
    (off off1 : Off) (r1 : ParseResult O2) (hpad : pad off = (r1, off1)) :
    (∀ e off2, p off1 = (Except.error e, off2) →
        Padded.go p pad off = (Except.error e, off2)) ∧
    (∀ v off2 r3 off3, p off1 = (Except.ok v, off2) → pad off2 = (r3, off3) →
        Padded.go p pad off = (Except.ok v, off3)) := by
  have hoff1 : (pad off).2 = off1 := by rw [hpad]
  constructor
  · intro e off2 hp
    simp [Padded.go, hoff1, hp]
  · intro v off2 r3 off3 hp hpad2
    have hoff3 : (pad off2).2 = off3 := by rw [hpad2]
    simp [Padded.go, hoff1, hp, hoff3]

theorem C10_padded_no_rewind_witness :
    Exact.go (listSource ['a', '}']) ['a', 'b'] 0
      = (Except.error ParseError.SyntaxError, 1) ∧
    Exact.go (listSource ['a', '}']) ['}'] 1 = (Except.ok ['}'], 2) ∧
    Exact.go (listSource ['a', '}']) ['a', 'b'] 2
      = (Except.error ParseError.SyntaxError, 2) ∧
    Padded.go (Exact.go (listSource ['a', '}']) ['}'])
        (Exact.go (listSource ['a', '}']) ['a', 'b']) 0 = (Except.ok ['}'], 2) :=
  ⟨rfl, rfl, rfl,
    (C10_padded_no_rewind (Exact.go (listSource ['a', '}']) ['}'])
      (Exact.go (listSource ['a', '}']) ['a', 'b']) 0 1
      (Except.error ParseError.SyntaxError) rfl).2 ['}'] 2
      (Except.error ParseError.SyntaxError) 2 rfl rfl⟩

end ParserComb

